import Mathlib

/-!
Verification of the Legislative Red Team core (src/lib/parser.ts,
src/lib/graph.ts) against its design document.

JavaScript strings are modelled as Lean `String`s; where character-level
surgery is needed (`String.prototype.split`), we work on `String.toList`.
JavaScript objects used as string-keyed records, and JavaScript `Map`s,
are modelled as association lists with JavaScript's assignment semantics:
an existing key keeps its position and receives the new value, a new key
is appended at the end. For `Map` this list order is exactly iteration
order; for plain objects the list models the internal property table in
creation order, and own-property enumeration order (integer-index keys
first, in ascending numeric order, then the remaining string keys in
creation order) is derived from it by `jsEntries`.
-/

/-- Segment of a USLM identifier path, modelled at the character level. -/
abbrev Seg := List Char

/-- Models JavaScript `String.prototype.split` with a one-character
separator, on the character-list view of the string: `"".split(c)`
gives `[""]`, and separators at the ends produce empty chunks,
exactly as in JavaScript. -/
def splitOnChar (c : Char) : List Char → List (List Char)
  | [] => [[]]
  | x :: xs =>
    if x = c then [] :: splitOnChar c xs
    else
      match splitOnChar c xs with
      | [] => [[x]]
      | s :: rest => (x :: s) :: rest

/-- Models one JavaScript record assignment `r[k] = v` (also `Map.set`):
if the key is already present it keeps its position and every pair
carrying that key receives the new value; otherwise the pair is appended.
The resulting list order is `Map` iteration order; for plain objects it
is property creation order, from which own-property enumeration order is
derived by `jsEntries`. -/
def jsRecordSet {α β : Type} [DecidableEq α] (r : List (α × β)) (k : α) (v : β) :
    List (α × β) :=
  if r.any (fun p => decide (p.1 = k)) then
    r.map (fun p => if p.1 = k then (k, v) else p)
  else
    r ++ [(k, v)]

/-- Models JavaScript key-membership (`k in r`, `Map.has`). -/
def jsHasKey {α β : Type} [DecidableEq α] (r : List (α × β)) (k : α) : Bool :=
  r.any (fun p => decide (p.1 = k))

/-- First-match association lookup: models JavaScript record read `r[k]`
(and `Map.get`) on the association-list view, where our `jsRecordSet`
keeps at most one pair per key. -/
def lookupRec {α β : Type} [DecidableEq α] : List (α × β) → α → Option β
  | [], _ => none
  | p :: ps, k => if p.1 = k then some p.2 else lookupRec ps k

/-- The `for` loop of `parseIdentifier` (src/lib/parser.ts lines 175-179):
walks the segment list two at a time, assigning `result[parts[i]] =
parts[i+1]` whenever a value segment exists; a trailing unpaired segment
performs no assignment. -/
def buildRecord (r : List (Seg × Seg)) : List Seg → List (Seg × Seg)
  | k :: v :: rest => buildRecord (jsRecordSet r k v) rest
  | _ => r

/-- The segment list computed by `identifier.split('/').filter(Boolean)`
in src/lib/parser.ts line 172: split on `/`, discard empty chunks. -/
def jsSegments (l : List Char) : List Seg :=
  (splitOnChar '/' l).filter (fun p => !p.isEmpty)

/-- Character-level core of `parseIdentifier` (src/lib/parser.ts
lines 171-182). -/
def parseIdentifierCore (l : List Char) : List (Seg × Seg) :=
  buildRecord [] (jsSegments l)

/-- Numeric value of a digit-string segment. -/
def segToNat (s : Seg) : Nat :=
  s.foldl (fun n c => n * 10 + (c.toNat - '0'.toNat)) 0

/-- True when the segment is a canonical ECMAScript array-index string:
nonempty, all decimal digits, no leading zero (except `0` itself), and
numeric value below `2^32 - 1`. Plain-object own-property enumeration
lists such keys first, in ascending numeric order. -/
def isArrayIndex (s : Seg) : Bool :=
  !s.isEmpty && s.all (fun c => c.isDigit) &&
    (decide (s = ['0']) || decide (s.headD ' ' ≠ '0')) &&
    decide (segToNat s < 4294967295)

/-- Stable insertion of a record entry into a list kept in ascending
numeric key order. -/
def insertByKey (p : Seg × Seg) : List (Seg × Seg) → List (Seg × Seg)
  | [] => [p]
  | q :: qs =>
    if segToNat q.1 ≤ segToNat p.1 then q :: insertByKey p qs
    else p :: q :: qs

/-- Stable sort of record entries by ascending numeric key value. -/
def sortByIndex (l : List (Seg × Seg)) : List (Seg × Seg) :=
  l.foldr insertByKey []

/-- ECMAScript own-property enumeration order of a plain object
(`OrdinaryOwnPropertyKeys`, the order observed through `Object.entries`
and `for..in`): integer-index keys first, in ascending numeric order,
then the remaining string keys in creation order. -/
def jsEntries (l : List (Seg × Seg)) : List (Seg × Seg) :=
  sortByIndex (l.filter (fun p => isArrayIndex p.1)) ++
    l.filter (fun p => !isArrayIndex p.1)

/-- Translation of `parseIdentifier` (src/lib/parser.ts lines 171-182):
split the identifier on `/`, discard empty segments, then run the
record-building loop. The resulting plain-object record is returned as
an association list in ECMAScript own-property enumeration order:
integer-index keys first in ascending numeric order, then the remaining
keys in creation order. -/
def parseIdentifier (identifier : String) : List (String × String) :=
  (jsEntries (parseIdentifierCore identifier.toList)).map
    (fun p => (String.mk p.1, String.mk p.2))

/-- Spec-side pairing (spec section 4.1): segment `2*i` is the key and
segment `2*i+1` is the value; a trailing unpaired segment is dropped. -/
def specPairs (l : List Seg) : List (Seg × Seg) :=
  (List.range (l.length / 2)).map (fun i => (l.getD (2*i) [], l.getD (2*i+1) []))

/-- Recursive pairing of consecutive list entries, dropping a trailing
unpaired entry; bridge between the loop of `buildRecord` and the
index-based `specPairs`. -/
def pairUp : List Seg → List (Seg × Seg)
  | k :: v :: rest => (k, v) :: pairUp rest
  | _ => []

/-- Canonical USLM path built from nonempty slash-free segments:
`/s1/s2/.../sn` (spec glossary: a slash-delimited hierarchical path). -/
def canonicalPath (segs : List Seg) : List Char :=
  segs.foldr (fun s acc => '/' :: s ++ acc) []

/-- Rejoining of the key/value pairs of a parsed identifier, in order,
each segment prefixed by `/` (the re-joining operation of the spec's
round-trip property, section 8). -/
def joinPairs (ps : List (String × String)) : String :=
  String.mk (ps.foldr (fun p acc => '/' :: p.1.toList ++ '/' :: p.2.toList ++ acc) [])

/-- Node type union from src/lib/graph.ts line 19. -/
inductive NodeType where
  | title | subtitle | chapter | subchapter | part | «section»
deriving DecidableEq, Repr

/-- Reference type union from src/lib/graph.ts line 28 and
src/lib/parser.ts line 47. -/
inductive RefType where
  | citation | amendment | repeal | definition
deriving DecidableEq, Repr

/-- USLMNode interface from src/lib/graph.ts lines 13-20. -/
structure USLMNode where
  identifier : String
  citation : String
  nodeType : NodeType
deriving DecidableEq, Repr

/-- USLMEdge interface from src/lib/graph.ts lines 22-31; the `from` and
`to` fields keep their source names via quoted identifiers because both
are Lean keywords. -/
structure USLMEdge where
  «from» : String
  «to» : String
  refType : RefType
  context : Option String := none
deriving DecidableEq, Repr

/-- Severity union of the loophole findings, src/lib/graph.ts line 95. -/
inductive Severity where
  | high | medium | low
deriving DecidableEq, Repr

/-- Shape of a loophole finding, src/lib/graph.ts lines 93-98. -/
structure Finding where
  type : String
  severity : Severity
  description : String
  affectedNodes : List String
deriving DecidableEq, Repr

/-- State of a `ShadowCodeGraph` instance (src/lib/graph.ts lines 33-35):
the private `nodes: Map<string, USLMNode>` modelled as an association
list in `Map` insertion order, and the private `edges: USLMEdge[]`. -/
structure ShadowCodeGraph where
  nodes : List (String × USLMNode)
  edges : List USLMEdge
deriving DecidableEq, Repr

/-- The fresh store produced by the `ShadowCodeGraph` constructor /
`createGraph` (src/lib/graph.ts lines 34-35 and 107-109). -/
def freshGraph : ShadowCodeGraph := ⟨[], []⟩

/-- addNode (src/lib/graph.ts lines 40-42): `this.nodes.set(node.identifier, node)`. -/
def addNode (g : ShadowCodeGraph) (n : USLMNode) : ShadowCodeGraph :=
  { g with nodes := jsRecordSet g.nodes n.identifier n }

/-- addEdge (src/lib/graph.ts lines 47-49): `this.edges.push(edge)`. -/
def addEdge (g : ShadowCodeGraph) (e : USLMEdge) : ShadowCodeGraph :=
  { g with edges := g.edges ++ [e] }

/-- getNode (src/lib/graph.ts lines 54-56): `this.nodes.get(identifier)`. -/
def getNode (g : ShadowCodeGraph) (identifier : String) : Option USLMNode :=
  lookupRec g.nodes identifier

/-- getEdgesFrom (src/lib/graph.ts lines 61-63):
`this.edges.filter(edge => edge.from === identifier)`. -/
def getEdgesFrom (g : ShadowCodeGraph) (identifier : String) : List USLMEdge :=
  g.edges.filter (fun e => decide (e.«from» = identifier))

/-- getEdgesTo (src/lib/graph.ts lines 68-70):
`this.edges.filter(edge => edge.to === identifier)`. -/
def getEdgesTo (g : ShadowCodeGraph) (identifier : String) : List USLMEdge :=
  g.edges.filter (fun e => decide (e.«to» = identifier))

/-- getAllNodes (src/lib/graph.ts lines 75-77):
`Array.from(this.nodes.values())`. -/
def getAllNodes (g : ShadowCodeGraph) : List USLMNode :=
  g.nodes.map Prod.snd

/-- getAllEdges (src/lib/graph.ts lines 82-84): `[...this.edges]`
(a copy of the edge array). -/
def getAllEdges (g : ShadowCodeGraph) : List USLMEdge :=
  g.edges

/-- detectLoopholes (src/lib/graph.ts lines 93-101). The body is an
explicit stub: `// Stub implementation` followed by `return []`. The
`async` wrapper is dropped in the embedding (the body performs no
suspension). -/
def detectLoopholes (_g : ShadowCodeGraph) : List Finding :=
  []

/-- One call on a `ShadowCodeGraph` instance: the public surface of
src/lib/graph.ts lines 33-102. -/
inductive CoreOp where
  | addNode (n : USLMNode)
  | addEdge (e : USLMEdge)
  | getNode (identifier : String)
  | getEdgesFrom (identifier : String)
  | getEdgesTo (identifier : String)
  | getAllNodes
  | getAllEdges
  | detectLoopholes

/-- State of the store after one call: only `addNode` and `addEdge`
assign to the private fields; every other method body of
src/lib/graph.ts reads them (or copies the array) without assignment. -/
def stepGraph (g : ShadowCodeGraph) : CoreOp → ShadowCodeGraph
  | .addNode n => addNode g n
  | .addEdge e => addEdge g e
  | .getNode _ => g
  | .getEdgesFrom _ => g
  | .getEdgesTo _ => g
  | .getAllNodes => g
  | .getAllEdges => g
  | .detectLoopholes => g

/-- State of a fresh store after a sequence of calls. -/
def runOps (ops : List CoreOp) : ShadowCodeGraph :=
  ops.foldl stepGraph freshGraph

/-- USLMReference interface from src/lib/parser.ts lines 45-52. -/
structure USLMReference where
  type : RefType
  target : String
  text : String
deriving DecidableEq, Repr

/-- USLMElement interface from src/lib/parser.ts lines 28-43 (recursive
through `children`; optional fields modelled with `Option`). -/
inductive USLMElement where
  | mk (type : String) (identifier : String)
      (num heading content : Option String)
      (children : List USLMElement) (refs : List USLMReference)

/-- USLMDocument interface from src/lib/parser.ts lines 54-63. -/
structure USLMDocument where
  docType : String
  identifier : String
  root : USLMElement
  references : List USLMReference

/-- USLMParser.parse (src/lib/parser.ts lines 75-96). The body is an
explicit stub (`// Stub implementation`): it ignores its input and
returns a fixed document with `docType: 'unknown'`, empty identifier, a
placeholder root element, and an empty reference list. The `async`
wrapper is dropped in the embedding (the body never suspends or throws). -/
def USLMParser.parse (_xmlContent : String) : USLMDocument :=
  { docType := "unknown"
    identifier := ""
    root := USLMElement.mk "document" "" none none none [] []
    references := [] }

/-- USLMParser.validate (src/lib/parser.ts lines 147-156). The body is an
explicit stub: it ignores its input and returns `{ valid: true,
errors: [] }`. Result modelled as a pair (valid flag, error list). -/
def USLMParser.validate (_xmlContent : String) : Bool × List String :=
  (true, [])

/-- The minimal Scenario E document of the design document, section 8. -/
def scenarioE : String :=
  "<bill identifier=\"/us/bill/118/hr/1\"><section identifier=\"/us/bill/118/hr/1/s1\"><ref href=\"/us/usc/t42/s1983\">42 U.S.C. 1983</ref></section></bill>"

/-- Induction on a list two entries at a time, matching the recursion
pattern of `pairUp` and `buildRecord`. -/
def twoStepInduction {α : Type} {P : List α → Prop} (h0 : P [])
    (h1 : ∀ a, P [a]) (h2 : ∀ a b l, P l → P (a :: b :: l)) : ∀ l, P l
  | [] => h0
  | [a] => h1 a
  | a :: b :: l => h2 a b l (twoStepInduction h0 h1 h2 l)

/-- Store used to exhibit the C2 divergence: one known node with one
edge pointing at an identifier that is not a key of the node map. -/
def danglingDemo : ShadowCodeGraph :=
  addEdge (addNode freshGraph ⟨"/us/usc/t1/s1", "1 U.S.C. § 1", NodeType.«section»⟩)
    ⟨"/us/usc/t1/s1", "/us/usc/t99/s404", RefType.citation, none⟩

theorem lookupRec_map_replace {α β : Type} [DecidableEq α] (k k' : α) (v : β)
    (r : List (α × β)) :
    lookupRec (r.map (fun p => if p.1 = k then (k, v) else p)) k' =
      if k' = k then (lookupRec r k).map (fun _ => v) else lookupRec r k' := by
  induction r with
  | nil => simp [lookupRec]
  | cons p ps ih =>
    by_cases hpk : p.1 = k
    · by_cases hk' : k' = k
      · subst hk'
        simp [lookupRec, hpk, ih]
      · simp [lookupRec, hpk, hk', ih, Ne.symm hk']
    · by_cases hpk' : p.1 = k'
      · have hk' : ¬ k' = k := fun hh => hpk (hpk'.trans hh)
        simp [lookupRec, hpk, hpk', hk', ih]
      · simp [lookupRec, hpk, hpk', ih]

theorem lookupRec_eq_none_of_not_hasKey {α β : Type} [DecidableEq α] (k : α)
    (r : List (α × β)) (h : r.any (fun p => decide (p.1 = k)) = false) :
    lookupRec r k = none := by
  induction r with
  | nil => simp [lookupRec]
  | cons p ps ih =>
    simp only [List.any_cons, Bool.or_eq_false_iff, decide_eq_false_iff_not] at h
    simp [lookupRec, h.1, ih h.2]

theorem lookupRec_isSome_of_hasKey {α β : Type} [DecidableEq α] (k : α)
    (r : List (α × β)) (h : r.any (fun p => decide (p.1 = k)) = true) :
    ∃ w, lookupRec r k = some w := by
  induction r with
  | nil => simp at h
  | cons p ps ih =>
    by_cases hpk : p.1 = k
    · exact ⟨p.2, by simp [lookupRec, hpk]⟩
    · simp only [List.any_cons, Bool.or_eq_true, decide_eq_true_eq] at h
      rcases h with h | h
    
      · exact absurd h hpk
      · rcases ih h with ⟨w, hw⟩
        exact ⟨w, by simp [lookupRec, hpk, hw]⟩

theorem lookupRec_append {α β : Type} [DecidableEq α] (k : α)
    (r s : List (α × β)) :
    lookupRec (r ++ s) k =
      match lookupRec r k with
      | some v => some v
      | none => lookupRec s k := by
  induction r with
  | nil => simp [lookupRec]
  | cons p ps ih =>
    by_cases hpk : p.1 = k
    · simp [lookupRec, hpk]
    · simp [lookupRec, hpk, ih]

theorem lookupRec_jsRecordSet {α β : Type} [DecidableEq α] (k k' : α) (v : β)
    (r : List (α × β)) :
    lookupRec (jsRecordSet r k v) k' =
      if k' = k then some v else lookupRec r k' := by
  unfold jsRecordSet
  by_cases h : r.any (fun p => decide (p.1 = k)) = true
  · rw [if_pos h, lookupRec_map_replace]
    rcases lookupRec_isSome_of_hasKey k r h with ⟨w, hw⟩
    by_cases hk' : k' = k
    · simp [hk', hw]
    · simp [hk']
  · rw [if_neg h, lookupRec_append]
    have hnone := lookupRec_eq_none_of_not_hasKey k r (Bool.eq_false_iff.mpr h)
    by_cases hk' : k' = k
    · subst hk'
      simp [hnone, lookupRec]
    · by_cases hsome : ∃ w, lookupRec r k' = some w
      · rcases hsome with ⟨w, hw⟩
        simp [hw, hk']
      · have : lookupRec r k' = none := by
          cases hx : lookupRec r k' with
          | none => rfl
          | some w => exact absurd ⟨w, hx⟩ hsome
        simp [this, lookupRec, hk', Ne.symm hk']

theorem buildRecord_eq_foldl (l : List Seg) :
    ∀ r, buildRecord r l = (pairUp l).foldl (fun acc p => jsRecordSet acc p.1 p.2) r := by
  induction l using twoStepInduction with
  | h0 => intro r; simp [buildRecord, pairUp]
  | h1 a => intro r; simp [buildRecord, pairUp]
  | h2 a b l ih => intro r; simp [buildRecord, pairUp, ih]

theorem specPairs_cons₂ (a b : Seg) (l : List Seg) :
    specPairs (a :: b :: l) = (a, b) :: specPairs l := by
  have hlen : (a :: b :: l).length / 2 = l.length / 2 + 1 := by
    simp only [List.length_cons]
    omega
  have hfun : ∀ i ∈ List.range (l.length / 2),
      ((fun i => ((a :: b :: l).getD (2 * i) [], (a :: b :: l).getD (2 * i + 1) [])) ∘ Nat.succ) i
        = (fun i => (l.getD (2 * i) [], l.getD (2 * i + 1) [])) i := by
    intro i _
    simp only [Function.comp_apply]
    have e2 : 2 * Nat.succ i = 2 * i + 1 + 1 := by omega
    rw [e2, List.getD_cons_succ, List.getD_cons_succ, List.getD_cons_succ,
      List.getD_cons_succ]
  calc specPairs (a :: b :: l)
      = List.map (fun i => ((a :: b :: l).getD (2 * i) [], (a :: b :: l).getD (2 * i + 1) []))
          (List.range (l.length / 2 + 1)) := by
        simp only [specPairs]
        rw [hlen]
    _ = ((a :: b :: l).getD (2 * 0) [], (a :: b :: l).getD (2 * 0 + 1) []) ::
          List.map ((fun i => ((a :: b :: l).getD (2 * i) [], (a :: b :: l).getD (2 * i + 1) [])) ∘ Nat.succ)
          (List.range (l.length / 2)) := by
        rw [List.range_succ_eq_map, List.map_cons, List.map_map]
    _ = (a, b) :: specPairs l := by
        rw [List.map_congr_left hfun]
        simp only [specPairs]
        simp

theorem pairUp_eq_specPairs : ∀ l : List Seg, pairUp l = specPairs l := by
  intro l
  induction l using twoStepInduction with
  | h0 => simp [pairUp, specPairs]
  | h1 a => simp [pairUp, specPairs]
  | h2 a b l ih =>
    rw [specPairs_cons₂]
    show (a, b) :: pairUp l = (a, b) :: specPairs l
    rw [ih]

theorem foldl_jsRecordSet_of_nodup {α β : Type} [DecidableEq α] :
    ∀ (ps r : List (α × β)), ((r ++ ps).map Prod.fst).Nodup →
      ps.foldl (fun acc p => jsRecordSet acc p.1 p.2) r = r ++ ps := by
  intro ps
  induction ps with
  | nil => intro r _; simp
  | cons p rest ih =>
    intro r hnd
    have hnotin : ¬ (r.any (fun q => decide (q.1 = p.1)) = true) := by
      intro hany
      rcases List.any_eq_true.mp hany with ⟨q, hq, hqe⟩
      have hqe' : q.1 = p.1 := of_decide_eq_true hqe
      have h1 : q.1 ∈ r.map Prod.fst := List.mem_map_of_mem Prod.fst hq
      have h2 : p.1 ∈ (p :: rest).map Prod.fst := by simp
      rw [List.map_append] at hnd
      rcases List.nodup_append.mp hnd with ⟨h3, h4, hdisj⟩
      exact hdisj h1 (hqe' ▸ h2)
    have hset : jsRecordSet r p.1 p.2 = r ++ [p] := by
      unfold jsRecordSet
      rw [if_neg hnotin]
    have hnd' : (((r ++ [p]) ++ rest).map Prod.fst).Nodup := by
      rw [List.append_assoc]
      simpa using hnd
    calc (p :: rest).foldl (fun acc q => jsRecordSet acc q.1 q.2) r
        = rest.foldl (fun acc q => jsRecordSet acc q.1 q.2) (r ++ [p]) := by
          rw [List.foldl_cons, hset]
      _ = (r ++ [p]) ++ rest := ih (r ++ [p]) hnd'
      _ = r ++ p :: rest := by simp

theorem lookupRec_foldl_jsRecordSet {α β : Type} [DecidableEq α]
    (ps : List (α × β)) (r : List (α × β)) (k : α) :
    lookupRec (ps.foldl (fun acc p => jsRecordSet acc p.1 p.2) r) k =
      match lookupRec ps.reverse k with
      | some v => some v
      | none => lookupRec r k := by
  induction ps using List.reverseRecOn generalizing r with
  | nil => simp [lookupRec]
  | append_singleton ps p ih =>
    rw [List.foldl_append, List.foldl_cons, List.foldl_nil, List.reverse_concat]
    rw [lookupRec_jsRecordSet]
    by_cases hk : k = p.1
    · subst hk
      simp [lookupRec]
    · rw [if_neg hk, ih]
      have hne : ¬ p.1 = k := fun h => hk h.symm
      have : lookupRec (p :: ps.reverse) k = lookupRec ps.reverse k := by
        simp [lookupRec, hne]
      rw [this]

theorem splitOnChar_ne_nil (c : Char) : ∀ l : List Char, splitOnChar c l ≠ [] := by
  intro l
  induction l with
  | nil => simp [splitOnChar]
  | cons x xs ih =>
    by_cases hx : x = c
    · simp [splitOnChar, hx]
    · simp only [splitOnChar, if_neg hx]
      cases h : splitOnChar c xs with
      | nil => simp
      | cons s rest => simp

theorem splitOnChar_append_of_not_mem (c : Char) :
    ∀ s t : List Char, c ∉ s →
      splitOnChar c (s ++ t) = (splitOnChar c t).modifyHead (fun h => s ++ h) := by
  intro s
  induction s with
  | nil =>
    intro t _
    cases h : splitOnChar c t with
    | nil => exact absurd h (splitOnChar_ne_nil c t)
    | cons a rest => simp [h]
  | cons x xs ih =>
    intro t hc
    have hx : ¬ x = c := fun h => hc (by simp [h])
    have hxs : c ∉ xs := fun h => hc (by simp [h])
    show splitOnChar c (x :: (xs ++ t)) = _
    simp only [splitOnChar, if_neg hx]
    rw [ih t hxs]
    cases h : splitOnChar c t with
    | nil => exact absurd h (splitOnChar_ne_nil c t)
    | cons a rest => simp

theorem splitOnChar_canonicalPath_head (segs : List Seg) :
    ∃ r, splitOnChar '/' (canonicalPath segs) = [] :: r := by
  cases segs with
  | nil => exact ⟨[], rfl⟩
  | cons s rest =>
    refine ⟨splitOnChar '/' (s ++ canonicalPath rest), ?_⟩
    show splitOnChar '/' ('/' :: (s ++ canonicalPath rest)) = _
    simp [splitOnChar]

theorem jsSegments_canonicalPath :
    ∀ segs : List Seg, (∀ s ∈ segs, s ≠ [] ∧ '/' ∉ s) →
      jsSegments (canonicalPath segs) = segs := by
  intro segs
  induction segs with
  | nil => intro _; simp [jsSegments, canonicalPath, splitOnChar]
  | cons s rest ih =>
    intro h
    have hs : s ≠ [] ∧ '/' ∉ s := h s (by simp)
    have hrest : ∀ x ∈ rest, x ≠ [] ∧ '/' ∉ x := fun x hx => h x (by simp [hx])
    have hstep : canonicalPath (s :: rest) = '/' :: (s ++ canonicalPath rest) := rfl
    rcases splitOnChar_canonicalPath_head rest with ⟨r, hr⟩
    have hsplit : splitOnChar '/' (canonicalPath (s :: rest)) = [] :: s :: r := by
      rw [hstep]
      show splitOnChar '/' ('/' :: (s ++ canonicalPath rest)) = _
      simp only [splitOnChar, if_pos rfl]
      rw [splitOnChar_append_of_not_mem '/' s (canonicalPath rest) hs.2, hr]
      simp
    have hse : (!s.isEmpty) = true := by
      cases s with
      | nil => exact absurd rfl hs.1
      | cons a b => rfl
    have hfil : List.filter (fun p => !p.isEmpty) r = rest := by
      have hx := ih hrest
      rw [jsSegments, hr] at hx
      simpa using hx
    rw [jsSegments, hsplit]
    simp [hse, hfil]

theorem toList_mk (l : List Char) : (String.mk l).toList = l := rfl

theorem foldr_join_pairUp :
    ∀ segs : List Seg, segs.length % 2 = 0 →
      (pairUp segs).foldr (fun p acc => '/' :: p.1 ++ '/' :: p.2 ++ acc) [] =
        canonicalPath segs := by
  intro segs
  induction segs using twoStepInduction with
  | h0 => intro _; rfl
  | h1 a => intro h; simp at h
  | h2 a b l ih =>
    intro h
    have hl : l.length % 2 = 0 := by
      simp only [List.length_cons] at h
      omega
    show '/' :: a ++ '/' :: b ++
        (pairUp l).foldr (fun p acc => '/' :: p.1 ++ '/' :: p.2 ++ acc) [] =
      canonicalPath (a :: b :: l)
    rw [ih hl]
    simp [canonicalPath]

theorem parseIdentifierCore_of_nodup (l : List Char)
    (h : ((specPairs (jsSegments l)).map Prod.fst).Nodup) :
    parseIdentifierCore l = specPairs (jsSegments l) := by
  unfold parseIdentifierCore
  rw [buildRecord_eq_foldl, pairUp_eq_specPairs]
  have hr := foldl_jsRecordSet_of_nodup (specPairs (jsSegments l)) [] (by simpa using h)
  simpa using hr

theorem insertByKey_perm (p : Seg × Seg) :
    ∀ l : List (Seg × Seg), (insertByKey p l).Perm (p :: l) := by
  intro l
  induction l with
  | nil => exact List.Perm.refl _
  | cons q qs ih =>
    simp only [insertByKey]
    by_cases hc : segToNat q.1 ≤ segToNat p.1
    · rw [if_pos hc]
      exact (List.Perm.cons q ih).trans (List.Perm.swap p q qs)
    · rw [if_neg hc]

theorem sortByIndex_perm : ∀ l : List (Seg × Seg), (sortByIndex l).Perm l := by
  intro l
  induction l with
  | nil => exact List.Perm.refl _
  | cons p ps ih =>
    show (insertByKey p (sortByIndex ps)).Perm (p :: ps)
    exact (insertByKey_perm p (sortByIndex ps)).trans (ih.cons p)

theorem jsEntries_perm (l : List (Seg × Seg)) : (jsEntries l).Perm l := by
  unfold jsEntries
  exact (List.Perm.append_right _ (sortByIndex_perm _)).trans
    (List.filter_append_perm (fun p => isArrayIndex p.1) l)

theorem jsEntries_eq_self (l : List (Seg × Seg))
    (h : ∀ pr ∈ l, isArrayIndex pr.1 = false) : jsEntries l = l := by
  unfold jsEntries
  have h1 : l.filter (fun p => isArrayIndex p.1) = [] :=
    List.filter_eq_nil_iff.mpr (fun a ha => by simp [h a ha])
  have h2 : l.filter (fun p => !isArrayIndex p.1) = l :=
    List.filter_eq_self.mpr (fun a ha => by simp [h a ha])
  rw [h1, h2]
  rfl

/-- C4 counterexample: at `/a/1/a/2` the consecutive-segment pairs are
`(a,1)` and `(a,2)`, but the returned record omits `(a,1)` entirely (the
duplicate key keeps only its last value), so `parseIdentifier` does not
return the mapping that pairs consecutive segments on this input. -/
theorem consecutive_pairs_counterexample :
    ("a", "1") ∈ (specPairs (jsSegments "/a/1/a/2".toList)).map
        (fun p => (String.mk p.1, String.mk p.2)) ∧
    ("a", "1") ∉ parseIdentifier "/a/1/a/2" ∧
    parseIdentifier "/a/1/a/2" ≠
      (specPairs (jsSegments "/a/1/a/2".toList)).map
        (fun p => (String.mk p.1, String.mk p.2)) := by
  refine ⟨by decide, by decide, by decide⟩

/-- C4 amended: for every input string whose key segments are pairwise
distinct, `parseIdentifier` splits the input on `/`, discards empty
segments, and returns a record whose entries are exactly the
consecutive-segment pairs — segment `2i` as key, segment `2i+1` as
value, a trailing unpaired segment dropped — as an unordered mapping (a
permutation of the pair list: plain-object enumeration lists
integer-index keys first). Totality (no failure on any input, partial
or empty mapping for malformed input) is inherent in the embedding:
`parseIdentifier` is a total Lean function. -/
theorem parseIdentifier_consecutive_pairs (id : String)
    (h : ((specPairs (jsSegments id.toList)).map Prod.fst).Nodup) :
    (parseIdentifier id).Perm
      ((specPairs (jsSegments id.toList)).map
        (fun p => (String.mk p.1, String.mk p.2))) := by
  unfold parseIdentifier
  rw [parseIdentifierCore_of_nodup id.toList h]
  exact List.Perm.map _ (jsEntries_perm _)

/-- Witness for the amended C4 at the identifier of the source's
doc-comment example, `/us/usc/t42/s1983`. -/
theorem parseIdentifier_consecutive_pairs_witness :
    ((specPairs (jsSegments "/us/usc/t42/s1983".toList)).map Prod.fst).Nodup ∧
    (parseIdentifier "/us/usc/t42/s1983").Perm
      ((specPairs (jsSegments "/us/usc/t42/s1983".toList)).map
        (fun p => (String.mk p.1, String.mk p.2))) :=
  ⟨by decide, parseIdentifier_consecutive_pairs _ (by decide)⟩

/-- C5 counterexample: `/a/1/a/2` is a well-formed path (canonical form
over nonempty slash-free segments) with an even number of segments, yet
rejoining the key/value pairs returned by `parseIdentifier` does not
reproduce it: the duplicate key `a` collapses to its last value, so the
rejoined string is `/a/2`. -/
theorem roundtrip_counterexample :
    "/a/1/a/2".toList = canonicalPath [['a'], ['1'], ['a'], ['2']] ∧
    (∀ s ∈ ([[ 'a'], ['1'], ['a'], ['2']] : List Seg), s ≠ [] ∧ '/' ∉ s) ∧
    ([['a'], ['1'], ['a'], ['2']] : List Seg).length % 2 = 0 ∧
    joinPairs (parseIdentifier "/a/1/a/2") ≠ "/a/1/a/2" := by
  refine ⟨by decide, by decide, by decide, by decide⟩

/-- C5 amended: for every well-formed path with an even number of
nonempty `/`-delimited segments whose key segments are pairwise
distinct and none of which is a canonical integer-index string (plain
object enumeration would move such keys to the front in numeric order),
applying `parseIdentifier` and rejoining the key/value pairs in order,
prefixed and separated by `/`, reproduces the identifier. -/
theorem roundtrip_even_distinct_keys (segs : List Seg)
    (h1 : ∀ s ∈ segs, s ≠ [] ∧ '/' ∉ s)
    (h2 : segs.length % 2 = 0)
    (h3 : ((specPairs segs).map Prod.fst).Nodup)
    (h4 : ∀ pr ∈ specPairs segs, isArrayIndex pr.1 = false) :
    joinPairs (parseIdentifier (String.mk (canonicalPath segs))) =
      String.mk (canonicalPath segs) := by
  have hseg : jsSegments (String.mk (canonicalPath segs)).toList = segs := by
    rw [toList_mk]
    exact jsSegments_canonicalPath segs h1
  have hcore : parseIdentifierCore (String.mk (canonicalPath segs)).toList
      = specPairs segs := by
    unfold parseIdentifierCore
    rw [hseg, buildRecord_eq_foldl, pairUp_eq_specPairs]
    have hr := foldl_jsRecordSet_of_nodup (specPairs segs) [] (by simpa using h3)
    simpa using hr
  show joinPairs
      ((jsEntries (parseIdentifierCore (String.mk (canonicalPath segs)).toList)).map
        (fun p => (String.mk p.1, String.mk p.2))) = String.mk (canonicalPath segs)
  rw [hcore, jsEntries_eq_self _ h4, ← pairUp_eq_specPairs]
  unfold joinPairs
  rw [List.foldr_map]
  congr 1
  simp only [toList_mk]
  exact foldr_join_pairUp segs h2

/-- Witness for the amended C5 at the two-segment path `/a/1`. -/
theorem roundtrip_even_distinct_keys_witness :
    (∀ s ∈ ([[ 'a'], ['1']] : List Seg), s ≠ [] ∧ '/' ∉ s) ∧
    ([['a'], ['1']] : List Seg).length % 2 = 0 ∧
    ((specPairs [['a'], ['1']]).map Prod.fst).Nodup ∧
    (∀ pr ∈ specPairs [['a'], ['1']], isArrayIndex pr.1 = false) ∧
    joinPairs (parseIdentifier (String.mk (canonicalPath [['a'], ['1']]))) =
      String.mk (canonicalPath [['a'], ['1']]) :=
  ⟨by decide, by decide, by decide, by decide,
    roundtrip_even_distinct_keys _ (by decide) (by decide) (by decide) (by decide)⟩

/-- C9: when the same key segment occurs more than once,
`parseIdentifier` keeps only the value of the key's last occurrence:
`/a/1/a/2` maps `a` to `2` and the result has fewer entries than the
input has segment pairs; in general a lookup in the built record returns
the value of the last consecutive-segment pair carrying that key. -/
theorem parseIdentifier_last_occurrence :
    parseIdentifier "/a/1/a/2" = [("a", "2")] ∧
    (parseIdentifier "/a/1/a/2").length <
      (specPairs (jsSegments "/a/1/a/2".toList)).length ∧
    ∀ (id : String) (k : Seg),
      lookupRec (parseIdentifierCore id.toList) k =
        lookupRec (specPairs (jsSegments id.toList)).reverse k := by
  refine ⟨by decide, by decide, ?_⟩
  intro id k
  unfold parseIdentifierCore
  rw [buildRecord_eq_foldl, pairUp_eq_specPairs, lookupRec_foldl_jsRecordSet]
  cases h : lookupRec (specPairs (jsSegments id.toList)).reverse k with
  | none => simp [lookupRec]
  | some v => simp

/-- C6: after any sequence of calls on a fresh store, adding a node
whose identifier is already a key overwrites the prior node
(last-write-wins): `getNode` then returns exactly the new node (no field
merging), and the node count does not grow. No error is possible: the
embedded operations are total. -/
theorem addNode_last_write_wins (ops : List CoreOp) (n : USLMNode)
    (h : getNode (runOps ops) n.identifier ≠ none) :
    getNode (addNode (runOps ops) n) n.identifier = some n ∧
    (addNode (runOps ops) n).nodes.length = (runOps ops).nodes.length := by
  constructor
  · show lookupRec (jsRecordSet (runOps ops).nodes n.identifier n) n.identifier = some n
    rw [lookupRec_jsRecordSet]
    simp
  · show (jsRecordSet (runOps ops).nodes n.identifier n).length = (runOps ops).nodes.length
    have hany : (runOps ops).nodes.any (fun p => decide (p.1 = n.identifier)) = true := by
      by_contra hc
      exact h (lookupRec_eq_none_of_not_hasKey n.identifier (runOps ops).nodes
        (Bool.eq_false_iff.mpr hc))
    unfold jsRecordSet
    rw [if_pos hany, List.length_map]

/-- Witness for C6: re-adding identifier `x` after one `addNode` call. -/
theorem addNode_last_write_wins_witness :
    getNode (runOps [CoreOp.addNode ⟨"x", "c1", NodeType.title⟩])
        (USLMNode.mk "x" "c2" NodeType.chapter).identifier ≠ none ∧
    (getNode (addNode (runOps [CoreOp.addNode ⟨"x", "c1", NodeType.title⟩])
          ⟨"x", "c2", NodeType.chapter⟩)
        (USLMNode.mk "x" "c2" NodeType.chapter).identifier =
        some ⟨"x", "c2", NodeType.chapter⟩ ∧
      (addNode (runOps [CoreOp.addNode ⟨"x", "c1", NodeType.title⟩])
          ⟨"x", "c2", NodeType.chapter⟩).nodes.length =
        (runOps [CoreOp.addNode ⟨"x", "c1", NodeType.title⟩]).nodes.length) :=
  ⟨by decide, addNode_last_write_wins _ _ (by decide)⟩

/-- C7: a sequence of `addEdge` calls appends exactly one edge per call
to the edge list, in call order, with identical edges preserved rather
than collapsed: the resulting `getAllEdges` is the prior edge list
followed by the added edges. -/
theorem addEdge_appends_in_order (g : ShadowCodeGraph) (es : List USLMEdge) :
    getAllEdges (es.foldl addEdge g) = getAllEdges g ++ es := by
  induction es generalizing g with
  | nil => simp [getAllEdges]
  | cons e rest ih =>
    rw [List.foldl_cons, ih]
    show (addEdge g e).edges ++ rest = g.edges ++ e :: rest
    simp [addEdge]

/-- C8: no core operation removes anything: after any single operation
on any store state, the old edge list is a prefix of the new one (every
edge stays, in its position) and every identifier that was a key of the
node map still is. -/
theorem graph_monotone (g : ShadowCodeGraph) (op : CoreOp) (k : String)
    (h : getNode g k ≠ none) :
    (∃ rest, (stepGraph g op).edges = g.edges ++ rest) ∧
    getNode (stepGraph g op) k ≠ none := by
  cases op with
  | addNode n =>
    refine ⟨⟨[], by simp [stepGraph, addNode]⟩, ?_⟩
    show lookupRec (jsRecordSet g.nodes n.identifier n) k ≠ none
    rw [lookupRec_jsRecordSet]
    by_cases hk : k = n.identifier
    · simp [hk]
    · simpa [hk] using h
  | addEdge e => exact ⟨⟨[e], rfl⟩, h⟩
  | getNode id => exact ⟨⟨[], by simp [stepGraph]⟩, h⟩
  | getEdgesFrom id => exact ⟨⟨[], by simp [stepGraph]⟩, h⟩
  | getEdgesTo id => exact ⟨⟨[], by simp [stepGraph]⟩, h⟩
  | getAllNodes => exact ⟨⟨[], by simp [stepGraph]⟩, h⟩
  | getAllEdges => exact ⟨⟨[], by simp [stepGraph]⟩, h⟩
  | detectLoopholes => exact ⟨⟨[], by simp [stepGraph]⟩, h⟩

/-- Witness for C8: an `addEdge` call on a one-node store. -/
theorem graph_monotone_witness :
    getNode (addNode freshGraph ⟨"x", "c", NodeType.title⟩) "x" ≠ none ∧
    ((∃ rest, (stepGraph (addNode freshGraph ⟨"x", "c", NodeType.title⟩)
          (CoreOp.addEdge ⟨"x", "y", RefType.citation, none⟩)).edges =
        (addNode freshGraph ⟨"x", "c", NodeType.title⟩).edges ++ rest) ∧
      getNode (stepGraph (addNode freshGraph ⟨"x", "c", NodeType.title⟩)
          (CoreOp.addEdge ⟨"x", "y", RefType.citation, none⟩)) "x" ≠ none) :=
  ⟨by decide, graph_monotone _ _ _ (by decide)⟩

/-- C10: `getEdgesFrom` returns exactly the edges whose `from` field is
the queried identifier and `getEdgesTo` exactly those whose `to` field
is, each as a subsequence of the edge list in insertion order (every
occurrence kept, nothing else included), and neither call mutates the
store. -/
theorem edges_query_filter (g : ShadowCodeGraph) (id : String) :
    ((getEdgesFrom g id).Sublist g.edges ∧
      ∀ e : USLMEdge, (getEdgesFrom g id).count e =
        if e.«from» = id then g.edges.count e else 0) ∧
    ((getEdgesTo g id).Sublist g.edges ∧
      ∀ e : USLMEdge, (getEdgesTo g id).count e =
        if e.«to» = id then g.edges.count e else 0) ∧
    stepGraph g (CoreOp.getEdgesFrom id) = g ∧
    stepGraph g (CoreOp.getEdgesTo id) = g := by
  refine ⟨⟨List.filter_sublist g.edges, ?_⟩, ⟨List.filter_sublist g.edges, ?_⟩, rfl, rfl⟩
  · intro e
    by_cases he : e.«from» = id
    · rw [if_pos he]
      exact List.count_filter (by simp [he])
    · rw [if_neg he, List.count_eq_zero]
      intro hmem
      rcases List.mem_filter.mp hmem with ⟨_, hpe⟩
      exact he (of_decide_eq_true hpe)
  · intro e
    by_cases he : e.«to» = id
    · rw [if_pos he]
      exact List.count_filter (by simp [he])
    · rw [if_neg he, List.count_eq_zero]
      intro hmem
      rcases List.mem_filter.mp hmem with ⟨_, hpe⟩
      exact he (of_decide_eq_true hpe)

/-- C1: the claim requires `parse` of the minimal Scenario E bill to
yield `docType = "bill"` and one citation reference to
`/us/usc/t42/s1983`; the source's `parse` is an explicit stub that
returns `docType = "unknown"` and no references for every input,
including this one. -/
theorem parse_stub_scenarioE :
    (USLMParser.parse scenarioE).docType = "unknown" ∧
    (USLMParser.parse scenarioE).docType ≠ "bill" ∧
    (USLMParser.parse scenarioE).references = [] :=
  ⟨rfl, by decide, rfl⟩

/-- C2: the claim requires one `dangling_reference` finding per edge
whose target is not a known node; the source's `detectLoopholes` is an
explicit stub that returns no findings even on a store that contains a
dangling edge. -/
theorem detectLoopholes_stub_dangling :
    danglingDemo.edges.countP (fun e => !(jsHasKey danglingDemo.nodes e.«to»)) = 1 ∧
    detectLoopholes danglingDemo = [] :=
  ⟨by decide, rfl⟩

/-- C3: the claim requires `validate` to record an error entry on
unparseable input and one error per violated structural rule; the
source's `validate` is an explicit stub returning `valid = true` with an
empty error list for every input, including unparseable ones. (The
claim's biconditional `valid` iff `errors = []` and its never-raises
part do hold of the stub; the error-recording parts do not.) -/
theorem validate_stub_constant :
    USLMParser.validate "<<<not xml" = (true, []) ∧
    ∀ s : String, USLMParser.validate s = (true, []) :=
  ⟨rfl, fun _ => rfl⟩
